import Mathlib

/-!
Verification development for the `tapas` video-publishing tool.

We give a shallow embedding of the parts of the repository that the
specification's testable properties talk about:

* `tapas/clips_csv.py`  — timecode parsing and clip derivation (`read_clips`);
* `tapas/youtube.py`    — the batched, order-preserving video getter
  (`YouTubeAPIClient.VideoGetter`), `get_playlist_videos`, `update_video`,
  `walk_dict`, `update_deep`;
* `publish_videos.py`   — the publish reconciler (`publish_videos`).

Python floats are modelled by `PyFloat` (rationals plus `nan`/`inf`/`-inf`
with IEEE comparison semantics: every comparison involving `nan` is false).
Python dicts keyed by strings are modelled as ordered association lists with
first-position-preserving overwrite, matching Python insertion-order
semantics.  Remote API calls are modelled as explicit oracle functions.
-/

/-! ## Python float values

`tapas` stores clip in/out points as Python floats obtained from
`parse_timecode`.  Only the ordering behaviour of those values matters to the
code under verification, so we model a float as either `nan`, one of the two
infinities, or a finite value (a rational).  Comparisons follow IEEE-754:
any comparison with `nan` is false. -/

inductive PyFloat where
  | nan : PyFloat
  | inf : PyFloat
  | ninf : PyFloat
  | fin : ℚ → PyFloat
  deriving DecidableEq, Repr

/-- Python `a < b` on floats. -/
def pyLt : PyFloat → PyFloat → Bool
  | .nan, _ => false
  | _, .nan => false
  | .ninf, .ninf => false
  | .ninf, _ => true
  | _, .ninf => false
  | .inf, _ => false
  | .fin _, .inf => true
  | .fin a, .fin b => decide (a < b)

/-- Python `a >= b` on floats.  This is the comparison `read_clips` uses
(`if inpoint >= outpoint: ... break`). -/
def pyGe : PyFloat → PyFloat → Bool
  | .nan, _ => false
  | _, .nan => false
  | .inf, _ => true
  | _, .inf => false
  | .ninf, .ninf => true
  | .ninf, .fin _ => false
  | .fin _, .ninf => true
  | .fin a, .fin b => decide (b ≤ a)

theorem pyGe_eq_false_of_pyLt (a b : PyFloat) (h : pyLt a b = true) :
    pyGe a b = false := by
  cases a <;> cases b <;> simp_all [pyLt, pyGe]

theorem pyLt_of_pyGe_eq_false (a b : PyFloat) (ha : a ≠ .nan) (hb : b ≠ .nan)
    (h : pyGe a b = false) : pyLt a b = true := by
  cases a <;> cases b <;> simp_all [pyLt, pyGe]

/-! ## Timecode parsing

`parse_timecode` in `clips_csv.py` first tries Python's `float()` and, on
`ValueError`, falls back to `pytimeparse.parse`.  Both of those are external
to the repository (a builtin and a third-party library). -/

/-- The natural number denoted by a digit list (most significant first). -/
def digitsVal (cs : List Char) : Nat :=
  cs.foldl (fun n c => 10 * n + (c.toNat - 48)) 0

/-- Digits of a nonempty all-digit character list, as a natural number. -/
def digitsToNat (cs : List Char) : Option Nat :=
  if cs ≠ [] ∧ cs.all Char.isDigit then some (digitsVal cs) else none

/-- Modelled from the spec: the "strict numeric parse" step of the Timecode
Parser (Python's `float()` builtin, which is not part of this repository).
Accepts an optional sign followed by either the words `nan` / `inf` /
`infinity` (case-insensitive) or a decimal literal `digits`, `digits.digits`,
`.digits`, `digits.`.  Exponents, underscores and surrounding whitespace are
omitted from the model; no claim depends on them. -/
def parseFloat (s : String) : Option PyFloat :=
  let withSign : Bool × List Char :=
    match s.data with
    | '-' :: rest => (true, rest)
    | '+' :: rest => (false, rest)
    | cs => (false, cs)
  let neg := withSign.1
  let body := withSign.2
  let low := body.map Char.toLower
  if low = ['n', 'a', 'n'] then
    some PyFloat.nan
  else if low = ['i', 'n', 'f'] ∨
      low = ['i', 'n', 'f', 'i', 'n', 'i', 't', 'y'] then
    some (if neg then PyFloat.ninf else PyFloat.inf)
  else
    let mag : Option ℚ :=
      match body.splitOn '.' with
      | [intPart] =>
        (digitsToNat intPart).map (fun n => (n : ℚ))
      | [intPart, fracPart] =>
        if intPart ++ fracPart ≠ [] ∧ (intPart ++ fracPart).all Char.isDigit
        then
          some (mkRat (digitsVal intPart * 10 ^ fracPart.length +
            digitsVal fracPart) (10 ^ fracPart.length))
        else none
      | _ => none
    mag.map (fun q => PyFloat.fin (if neg then -q else q))

/-- Modelled from the spec: the "duration-expression parse" fallback of the
Timecode Parser (`pytimeparse.parse`, a third-party library that is not part
of this repository).  We model the colon-separated forms `M:S` and `H:M:S`;
the library returns a number of seconds, never `nan`. -/
def parseDuration (s : String) : Option PyFloat :=
  match (s.data.splitOn ':').map digitsToNat with
  | [some m, some sec] => some (PyFloat.fin ((60 * m + sec : Nat) : ℚ))
  | [some h, some m, some sec] =>
    some (PyFloat.fin ((3600 * h + 60 * m + sec : Nat) : ℚ))
  | _ => none

/-- `clips_csv.parse_timecode`: try the strict numeric parse, then the
duration parse; `none` models Python's `None` ("unparsable"). -/
def parse_timecode (s : String) : Option PyFloat :=
  match parseFloat s with
  | some v => some v
  | none => parseDuration s

/-! ## Edit-log rows and clips -/

/-- One row of the edit-log CSV, as produced by `csv.DictReader`.  A field is
`none` when the column is absent (or the cell is empty, which the code treats
identically through Python truthiness everywhere these fields are used). -/
structure Row where
  File : Option String
  Inpoint : Option String
  Name : Option String
  Description : Option String
  Skip : Option String
  deriving DecidableEq, Repr

/-- Python truthiness of `row.get(key)`: a present, non-empty string. -/
def truthy : Option String → Bool
  | none => false
  | some s => decide (s ≠ "")

/-- `clips_csv.Clip`.  `file` keeps the raw CSV string (the code wraps it in
`pathlib.PurePath`, which does not affect any property considered here);
`description` is the row's Description with Python's
`this_row.get("Description", "")` default collapsed to the empty string. -/
structure Clip where
  file : String
  inpoint : PyFloat
  outpoint : PyFloat
  name : String
  description : String
  deriving DecidableEq, Repr

/-- Outcome of processing one adjacent `(this_row, next_row)` pair inside the
`read_clips` loop: continue without emitting, emit a clip, or `break` out of
the whole loop with the printed error message. -/
inductive PairStep where
  | skip : PairStep
  | emit : Clip → PairStep
  | abort : String → PairStep
  deriving DecidableEq, Repr

/-- The body of the `read_clips` loop for one `(this_row, next_row)` pair,
translated line by line from `clips_csv.read_clips`.  Python's
`if not this_row.get(k)` (absent column or empty cell) becomes a match on
the optional field plus an emptiness test. -/
def processPair (r1 r2 : Row) : PairStep :=
  if truthy r1.Skip then .skip
  else
    match r1.File with
    | none => .abort "File missing"
    | some file =>
      if file = "" then .abort "File missing"
      else if r1.File ≠ r2.File then .skip
      else
        match r1.Inpoint with
        | none => .abort "Inpoint missing"
        | some s1 =>
          if s1 = "" then .abort "Inpoint missing"
          else
            match parse_timecode s1 with
            | none => .abort "invalid format for Inpoint"
            | some inpoint =>
              match r2.Inpoint with
              | none => .abort "next row's Inpoint missing"
              | some s2 =>
                if s2 = "" then .abort "next row's Inpoint missing"
                else
                  match parse_timecode s2 with
                  | none => .abort "invalid format for Inpoint on next row"
                  | some outpoint =>
                    if pyGe inpoint outpoint then
                      .abort "Inpoint is not less than next row's Inpoint"
                    else
                      match r1.Name with
                      | none => .abort "Name missing"
                      | some nm =>
                        if nm = "" then .abort "Name missing"
                        else
                          .emit ⟨file, inpoint, outpoint, nm,
                            r1.Description.getD ""⟩

/-- Whether a pair step is not an abort (the scan keeps going). -/
def notAbort : PairStep → Bool
  | .abort _ => false
  | _ => true

/-- The `read_clips` scan: iterate `itertools.pairwise` over the rows with
row numbers starting at 2 (`enumerate(..., 2)`), collecting yielded clips and
the diagnostic printed by the first aborting row, if any.  A `break` ends the
whole generator, so nothing after an abort is produced. -/
def readClipsAux (n : Nat) : List Row → List Clip × Option (Nat × String)
  | r1 :: r2 :: rest =>
    match processPair r1 r2 with
    | .skip => readClipsAux (n + 1) (r2 :: rest)
    | .emit c =>
      let res := readClipsAux (n + 1) (r2 :: rest)
      (c :: res.1, res.2)
    | .abort msg => ([], some (n, msg))
  | _ => ([], none)

/-- The clips yielded by `clips_csv.read_clips` for the given data rows
(the CSV header row is consumed by `DictReader` and is not part of the
input list). -/
def read_clips (rows : List Row) : List Clip :=
  (readClipsAux 2 rows).1

/-- The diagnostic (row number and message) printed by `read_clips`, if the
scan aborted. -/
def readClipsDiag (rows : List Row) : Option (Nat × String) :=
  (readClipsAux 2 rows).2

example : parse_timecode "0" = some (PyFloat.fin 0) := by decide
example : parse_timecode "10" = some (PyFloat.fin 10) := by decide
example : parse_timecode "nan" = some PyFloat.nan := by decide
example : parse_timecode "1:23" = some (PyFloat.fin 83) := by decide
example : parse_timecode "abc" = none := by decide
example : parse_timecode "2.5" = some (PyFloat.fin (Rat.divInt 5 2)) := by
  decide

/-! ## Clip-derivation lemmas and claims C7, C8, C9 -/

/-- One unfolding step of the scan on a list with at least two rows. -/
theorem readClipsAux_cons (n : Nat) (r1 r2 : Row) (rest : List Row) :
    readClipsAux n (r1 :: r2 :: rest) =
      match processPair r1 r2 with
      | .skip => readClipsAux (n + 1) (r2 :: rest)
      | .emit c => (c :: (readClipsAux (n + 1) (r2 :: rest)).1,
          (readClipsAux (n + 1) (r2 :: rest)).2)
      | .abort msg => ([], some (n, msg)) := rfl

/-- The scan on a single remaining row produces nothing (the final row of a
file-run is a pure boundary marker). -/
theorem readClipsAux_single (n : Nat) (r : Row) :
    readClipsAux n [r] = ([], none) := rfl

/-- Any clip emitted for a pair has passed the `inpoint >= outpoint` guard. -/
theorem processPair_emit_ge (r1 r2 : Row) (c : Clip)
    (h : processPair r1 r2 = .emit c) :
    pyGe c.inpoint c.outpoint = false := by
  unfold processPair at h
  repeat' split at h
  all_goals cases h
  all_goals simp_all

/-- Every clip produced by the scan comes from some adjacent pair. -/
theorem mem_readClipsAux (n : Nat) (rows : List Row) (c : Clip)
    (hc : c ∈ (readClipsAux n rows).1) :
    ∃ r1 r2, processPair r1 r2 = .emit c := by
  induction rows generalizing n with
  | nil => simp [readClipsAux] at hc
  | cons r1 rest ih =>
    cases rest with
    | nil => simp [readClipsAux] at hc
    | cons r2 rest2 =>
      rw [readClipsAux_cons] at hc
      cases hpp : processPair r1 r2 with
      | skip =>
        rw [hpp] at hc
        exact ih (n + 1) hc
      | emit c0 =>
        rw [hpp] at hc
        simp only [List.mem_cons] at hc
        rcases hc with rfl | hc
        · exact ⟨r1, r2, hpp⟩
        · exact ih (n + 1) hc
      | abort msg =>
        rw [hpp] at hc
        simp at hc

/-- C7: for two adjacent rows with equal, non-empty `File`, first row's
`Skip` unset and `Name` present, and both `Inpoint`s parsing with
`row1.Inpoint < row2.Inpoint`, the pair emits exactly one clip carrying
`(file, inpoint, outpoint, name, description-or-empty)`, and `read_clips`
on that two-row log yields exactly that clip. -/
theorem C7_pair_yields_one_clip
    (r1 r2 : Row) (f s1 s2 nm : String) (v1 v2 : PyFloat)
    (hskip : truthy r1.Skip = false)
    (hf1 : r1.File = some f) (hf : f ≠ "") (hf2 : r2.File = some f)
    (hi1 : r1.Inpoint = some s1) (hs1 : s1 ≠ "")
    (hp1 : parse_timecode s1 = some v1)
    (hi2 : r2.Inpoint = some s2) (hs2 : s2 ≠ "")
    (hp2 : parse_timecode s2 = some v2)
    (hlt : pyLt v1 v2 = true)
    (hn : r1.Name = some nm) (hnm : nm ≠ "") :
    processPair r1 r2 = .emit ⟨f, v1, v2, nm, r1.Description.getD ""⟩ ∧
    read_clips [r1, r2] = [⟨f, v1, v2, nm, r1.Description.getD ""⟩] := by
  have hge : pyGe v1 v2 = false := pyGe_eq_false_of_pyLt v1 v2 hlt
  have hemit : processPair r1 r2 =
      .emit ⟨f, v1, v2, nm, r1.Description.getD ""⟩ := by
    simp [processPair, hskip, hf1, hf2, hf, hi1, hi2, hs1, hs2,
      hp1, hp2, hge, hn, hnm]
  refine ⟨hemit, ?_⟩
  rw [read_clips, readClipsAux_cons, hemit, readClipsAux_single]

/-- Witness for C7 at a concrete edit log (the spec's end-to-end example,
restricted to the first two rows). -/
theorem C7_pair_yields_one_clip_witness :
    processPair
        ⟨some "a.mp4", some "0", some "Intro", none, none⟩
        ⟨some "a.mp4", some "10", none, none, none⟩ =
      .emit ⟨"a.mp4", .fin 0, .fin 10, "Intro", ""⟩ ∧
    read_clips
        [⟨some "a.mp4", some "0", some "Intro", none, none⟩,
         ⟨some "a.mp4", some "10", none, none, none⟩] =
      [⟨"a.mp4", .fin 0, .fin 10, "Intro", ""⟩] :=
  C7_pair_yields_one_clip _ _ "a.mp4" "0" "10" "Intro" (.fin 0) (.fin 10)
    (by decide) rfl (by decide) rfl rfl (by decide) (by decide) rfl
    (by decide) (by decide) (by decide) rfl (by decide)

/-- The scan on `pre ++ r :: next :: rest`, when no pair inside `pre ++ [r]`
aborts and the pair `(r, next)` aborts with `msg`, yields exactly the clips
of the prefix scan and reports the abort at row `n + pre.length`. -/
theorem readClipsAux_abort (pre : List Row) (r next : Row) (rest : List Row)
    (msg : String) :
    ∀ n : Nat,
    List.Chain' (fun a b => notAbort (processPair a b) = true) (pre ++ [r]) →
    processPair r next = .abort msg →
    readClipsAux n (pre ++ r :: next :: rest) =
      ((readClipsAux n (pre ++ [r])).1, some (n + pre.length, msg)) := by
  induction pre with
  | nil =>
    intro n _ habort
    simp only [List.nil_append, List.length_nil, Nat.add_zero]
    rw [readClipsAux_cons, habort, readClipsAux_single]
  | cons a pre ih =>
    intro n hchain habort
    cases pre with
    | nil =>
      have hP : notAbort (processPair a r) = true :=
        (List.chain'_cons.mp hchain).1
      have hstep : readClipsAux (n + 1) (r :: next :: rest) =
          ([], some (n + 1, msg)) := by
        rw [readClipsAux_cons, habort]
      cases hpp : processPair a r with
      | skip =>
        simp only [List.cons_append, List.nil_append]
        rw [readClipsAux_cons n a r (next :: rest), hpp, hstep,
          readClipsAux_cons n a r [], hpp, readClipsAux_single]
        rfl
      | emit c0 =>
        simp only [List.cons_append, List.nil_append]
        rw [readClipsAux_cons n a r (next :: rest), hpp, hstep,
          readClipsAux_cons n a r [], hpp, readClipsAux_single]
        rfl
      | abort m => rw [hpp] at hP; simp [notAbort] at hP
    | cons b pre2 =>
      have hP : notAbort (processPair a b) = true :=
        (List.chain'_cons.mp hchain).1
      have hchain2 : List.Chain'
          (fun x y => notAbort (processPair x y) = true)
          ((b :: pre2) ++ [r]) :=
        (List.chain'_cons.mp hchain).2
      have hstep := ih (n + 1) hchain2 habort
      simp only [List.cons_append] at hstep ⊢
      have harith : n + 1 + (b :: pre2).length =
          n + (a :: b :: pre2).length := by
        simp only [List.length_cons]
        omega
      cases hpp : processPair a b with
      | skip =>
        rw [readClipsAux_cons n a b (pre2 ++ r :: next :: rest), hpp,
          readClipsAux_cons n a b (pre2 ++ [r]), hpp, hstep, harith]
      | emit c0 =>
        rw [readClipsAux_cons n a b (pre2 ++ r :: next :: rest), hpp,
          readClipsAux_cons n a b (pre2 ++ [r]), hpp, hstep, harith]
      | abort m => rw [hpp] at hP; simp [notAbort] at hP

/-- C8: the derivation is fail-fast.  If no pair among the rows up to a
malformed row aborts, and the malformed row's pair aborts with message
`msg`, then the scan delivers exactly the clips of the prefix (nothing for
the malformed row or anything after it, however valid) and prints the
diagnostic with the malformed row's row number (`pre.length + 2`). -/
theorem C8_fail_fast (pre : List Row) (r next : Row) (rest : List Row)
    (msg : String)
    (hpre : List.Chain' (fun a b => notAbort (processPair a b) = true)
      (pre ++ [r]))
    (habort : processPair r next = .abort msg) :
    read_clips (pre ++ r :: next :: rest) = read_clips (pre ++ [r]) ∧
    readClipsDiag (pre ++ r :: next :: rest) =
      some (pre.length + 2, msg) := by
  have h := readClipsAux_abort pre r next rest msg 2 hpre habort
  constructor
  · rw [read_clips, h]
    rfl
  · rw [readClipsDiag, h]
    simp [Nat.add_comm]

/-- Witness for C8: a valid first row, a second row missing `Name`, then a
row that would pair validly with a further valid row; only the first row's
clip is delivered and the diagnostic names row 3. -/
theorem C8_fail_fast_witness :
    read_clips
        [⟨some "a.mp4", some "0", some "Intro", none, none⟩,
         ⟨some "a.mp4", some "10", none, none, none⟩,
         ⟨some "a.mp4", some "25", some "Later", none, none⟩,
         ⟨some "a.mp4", some "40", none, none, none⟩] =
      [⟨"a.mp4", .fin 0, .fin 10, "Intro", ""⟩] ∧
    readClipsDiag
        [⟨some "a.mp4", some "0", some "Intro", none, none⟩,
         ⟨some "a.mp4", some "10", none, none, none⟩,
         ⟨some "a.mp4", some "25", some "Later", none, none⟩,
         ⟨some "a.mp4", some "40", none, none, none⟩] =
      some (3, "Name missing") := by
  have h := C8_fail_fast
    [⟨some "a.mp4", some "0", some "Intro", none, none⟩]
    ⟨some "a.mp4", some "10", none, none, none⟩
    ⟨some "a.mp4", some "25", some "Later", none, none⟩
    [⟨some "a.mp4", some "40", none, none, none⟩]
    "Name missing" (List.chain'_pair.mpr (by decide)) (by decide)
  simpa using h

/-- C9 counterexample: the timecode `nan` parses to a float, every Python
comparison with `nan` is false, so the `inpoint >= outpoint` guard passes
and a clip with `inpoint = outpoint = nan` is yielded; it does not satisfy
`inpoint < outpoint`. -/
theorem C9_counterexample :
    read_clips
        [⟨some "a.mp4", some "nan", some "x", none, none⟩,
         ⟨some "a.mp4", some "nan", none, none, none⟩] =
      [⟨"a.mp4", .nan, .nan, "x", ""⟩] ∧
    pyLt PyFloat.nan PyFloat.nan = false := by
  decide

/-- C9 amended: every clip yielded by `read_clips` satisfies
`not (inpoint >= outpoint)` under Python float comparison semantics; the
strict inequality `inpoint < outpoint` holds whenever neither endpoint is
`nan` (timecodes parsing to `nan` defeat the guard vacuously). -/
theorem C9_amended (rows : List Row) (c : Clip) (hc : c ∈ read_clips rows) :
    pyGe c.inpoint c.outpoint = false ∧
    (c.inpoint ≠ .nan → c.outpoint ≠ .nan →
      pyLt c.inpoint c.outpoint = true) := by
  obtain ⟨r1, r2, hpp⟩ := mem_readClipsAux 2 rows c hc
  have hge := processPair_emit_ge r1 r2 c hpp
  exact ⟨hge, fun h1 h2 => pyLt_of_pyGe_eq_false _ _ h1 h2 hge⟩

/-- Witness for C9 amended, at a concrete log. -/
theorem C9_amended_witness :
    pyGe (PyFloat.fin 0) (PyFloat.fin 10) = false ∧
    (PyFloat.fin 0 ≠ .nan → PyFloat.fin 10 ≠ .nan →
      pyLt (PyFloat.fin 0) (PyFloat.fin 10) = true) := by
  have h := C9_amended
    [⟨some "a.mp4", some "0", some "Intro", none, none⟩,
     ⟨some "a.mp4", some "10", none, none, none⟩]
    ⟨"a.mp4", .fin 0, .fin 10, "Intro", ""⟩ (by decide)
  simpa using h

/-! ## Publish reconciler (`publish_videos.py`), claims C2, C3, C4

The remote platform's state is modelled as the ordered list of candidate
videos that the discovery loop enumerates (`youtube.get_uploaded_videos` or
`get_playlist_videos`); each carries its platform id, current title and
processing status.  The two mutating calls are modelled as `Mut` values;
applying an update to the remote state renames the targeted video. -/

/-- A candidate video as seen by the discovery loop of `publish_videos`. -/
structure RVideo where
  id : Nat
  title : String
  processingStatus : String
  deriving DecidableEq, Repr

/-- The discovery loop of `publish_videos` (lines 37-53): fold over the
candidate videos building `uploaded : title -> video id`.  A candidate whose
`processingStatus` is not exactly `"succeeded"` is skipped with a printed
diagnostic; otherwise `uploaded[title] = id` (a later candidate with the
same title overwrites an earlier one, as in a Python dict). -/
def discover (videos : List RVideo) : String → Option Nat :=
  videos.foldl
    (fun m v =>
      if v.processingStatus ≠ "succeeded" then m
      else fun t => if t = v.title then some v.id else m t)
    (fun _ => none)

/-- A mutating API call issued by the reconciler: `update_video` (which sets
the video's title to the clip's final name, its description, category and
public visibility) or `add_video_to_playlist`. -/
inductive Mut where
  | update (videoId : Nat) (title : String)
  | add (videoId : Nat)
  deriving DecidableEq, Repr

/-- How one run of `publish_videos` ends: the clip walk completes, it stops
early at the first unresolved clip (`break`), or it raises. -/
inductive Outcome where
  | finished
  | stopped
  | crashed
  deriving DecidableEq, Repr

/-- The reconciliation walk of `publish_videos` (lines 56-91) over the
`clips` ordered dict (expected-title → Clip), given the discovered
`uploaded` map `u` and oracles `updOk`/`addOk` telling whether the
`update_video` / playlist-insert response for a video id carries a truthy
`"id"` field.  When a response lacks the id, the code executes
`pprint(result)` — but `pprint` is the module object bound by
`import pprint`, and calling a module raises `TypeError`, so the run
crashes at that point instead of returning; `Outcome.crashed` models the
raised exception (the mutating call itself has already been issued). -/
def reconcile (u : String → Option Nat) (updOk addOk : Nat → Bool) :
    List (String × Clip) → List Mut × Outcome
  | [] => ([], .finished)
  | (title, c) :: rest =>
    match u c.name with
    | some _ => reconcile u updOk addOk rest
    | none =>
      match u title with
      | none => ([], .stopped)
      | some vid =>
        if updOk vid then
          if addOk vid then
            let res := reconcile u updOk addOk rest
            (.update vid c.name :: .add vid :: res.1, res.2)
          else ([.update vid c.name, .add vid], .crashed)
        else ([.update vid c.name], .crashed)

/-- Effect of a mutating call on one remote video: an update retitles the
video with the matching id, a playlist insert changes no video metadata. -/
def applyMutV (m : Mut) (v : RVideo) : RVideo :=
  match m with
  | .update vid t => if v.id = vid then ⟨v.id, t, v.processingStatus⟩ else v
  | .add _ => v

/-- Effect of a mutating call on the remote state. -/
def applyMut (m : Mut) (videos : List RVideo) : List RVideo :=
  videos.map (applyMutV m)

/-- Effect of a run's mutation sequence on the remote state. -/
def applyMuts (ms : List Mut) (videos : List RVideo) : List RVideo :=
  ms.foldl (fun s m => applyMut m s) videos

/-- The cumulative effect of a mutation sequence on one video. -/
def finalVideo (ms : List Mut) (v : RVideo) : RVideo :=
  ms.foldl (fun w m => applyMutV m w) v

/-- The mutating calls issued by one run of `publish_videos` against remote
state `S` with clip dict `clips`, when every mutating response carries an
id. -/
def runMuts (S : List RVideo) (clips : List (String × Clip)) : List Mut :=
  (reconcile (discover S) (fun _ => true) (fun _ => true) clips).1

/-- C3 counterexample: a candidate whose processing status is `"failed"` —
a terminal status distinct from the non-terminal `"processing"` — is *not*
recorded in the discovered title-to-id map, because the code's test is
`!= "succeeded"`, not `== "processing"`. -/
theorem C3_counterexample :
    ("failed" ≠ "processing") ∧
    discover [⟨1, "T", "failed"⟩] "T" = none := by
  decide

/-- C4 (code bug): when the `update_video` response lacks a truthy `"id"`,
the run does not return gracefully — it crashes (the code calls
`pprint(result)` where `pprint` is the imported *module*, raising
`TypeError`), after the mutating call has already been issued. -/
theorem C4_missing_id_crashes :
    reconcile (discover [⟨5, "T", "succeeded"⟩])
      (fun _ => false) (fun _ => true)
      [("T", ⟨"a.mp4", .fin 0, .fin 10, "My Clip", ""⟩)] =
      ([.update 5 "My Clip"], .crashed) := by
  decide

/-- C2 counterexample: with an unchanged remote between the two runs, the
second run can still mutate.  Here the first clip's final name equals the
second clip's expected title; run 1 renames video 1 to `"a 10 20"` and then
stops at the (undiscovered) second clip; run 2 finds the first clip already
renamed, but now resolves the second clip's expected title against the
video renamed by run 1 and issues two further mutating calls. -/
theorem C2_counterexample :
    runMuts [⟨1, "b 0 1", "succeeded"⟩]
        [("b 0 1", ⟨"b.mp4", .fin 0, .fin 1, "a 10 20", ""⟩),
         ("a 10 20", ⟨"a.mp4", .fin 2, .fin 3, "Great clip", ""⟩)] =
      [.update 1 "a 10 20", .add 1] ∧
    runMuts
        (applyMuts
          (runMuts [⟨1, "b 0 1", "succeeded"⟩]
            [("b 0 1", ⟨"b.mp4", .fin 0, .fin 1, "a 10 20", ""⟩),
             ("a 10 20", ⟨"a.mp4", .fin 2, .fin 3, "Great clip", ""⟩)])
          [⟨1, "b 0 1", "succeeded"⟩])
        [("b 0 1", ⟨"b.mp4", .fin 0, .fin 1, "a 10 20", ""⟩),
         ("a 10 20", ⟨"a.mp4", .fin 2, .fin 3, "Great clip", ""⟩)] =
      [.update 1 "Great clip", .add 1] := by
  decide

/-! ### Characterizing the discovered-title map -/

/-- One step of the `discover` fold. -/
def discoverStep (m : String → Option Nat) (v : RVideo) :
    String → Option Nat :=
  if v.processingStatus ≠ "succeeded" then m
  else fun t => if t = v.title then some v.id else m t

theorem discover_eq_foldl (S : List RVideo) :
    discover S = S.foldl discoverStep (fun _ => none) := rfl

theorem discoverStep_succ_eq (m : String → Option Nat) (v : RVideo)
    (hs : v.processingStatus = "succeeded") (t : String) :
    discoverStep m v t = if t = v.title then some v.id else m t := by
  unfold discoverStep
  rw [if_neg (not_not_intro hs)]

theorem discoverStep_notsucc_eq (m : String → Option Nat) (v : RVideo)
    (hs : ¬ v.processingStatus = "succeeded") (t : String) :
    discoverStep m v t = m t := by
  unfold discoverStep
  rw [if_pos hs]

theorem foldl_discoverStep_eq_none (S : List RVideo) :
    ∀ (m : String → Option Nat) (t : String),
    (S.foldl discoverStep m t = none ↔
      m t = none ∧
        ∀ v ∈ S, v.processingStatus = "succeeded" → v.title ≠ t) := by
  induction S with
  | nil => intro m t; simp
  | cons v S ih =>
    intro m t
    rw [List.foldl_cons, ih]
    constructor
    · rintro ⟨h1, h2⟩
      by_cases hs : v.processingStatus = "succeeded"
      · rw [discoverStep_succ_eq m v hs] at h1
        by_cases ht : t = v.title
        · rw [if_pos ht] at h1
          exact absurd h1 (by simp)
        · rw [if_neg ht] at h1
          refine ⟨h1, fun w hw hws => ?_⟩
          rcases List.mem_cons.mp hw with rfl | hw2
          · exact fun he => ht he.symm
          · exact h2 w hw2 hws
      · rw [discoverStep_notsucc_eq m v hs] at h1
        refine ⟨h1, fun w hw hws => ?_⟩
        rcases List.mem_cons.mp hw with rfl | hw2
        · exact absurd hws hs
        · exact h2 w hw2 hws
    · rintro ⟨h1, h2⟩
      refine ⟨?_, fun w hw hws => h2 w (List.mem_cons_of_mem _ hw) hws⟩
      by_cases hs : v.processingStatus = "succeeded"
      · rw [discoverStep_succ_eq m v hs]
        by_cases ht : t = v.title
        · exact absurd ht.symm (h2 v (List.mem_cons_self _ _) hs)
        · rw [if_neg ht]; exact h1
      · rw [discoverStep_notsucc_eq m v hs]; exact h1

/-- The discovered map misses a title iff no succeeded candidate bears it. -/
theorem discover_eq_none_iff (S : List RVideo) (t : String) :
    discover S t = none ↔
      ∀ v ∈ S, v.processingStatus = "succeeded" → v.title ≠ t := by
  rw [discover_eq_foldl, foldl_discoverStep_eq_none]
  simp

/-- The discovered map hits a title iff some succeeded candidate bears it. -/
theorem discover_isSome_iff (S : List RVideo) (t : String) :
    (discover S t).isSome ↔
      ∃ v ∈ S, v.processingStatus = "succeeded" ∧ v.title = t := by
  rw [Option.isSome_iff_ne_none, Ne, discover_eq_none_iff]
  push_neg
  constructor
  · rintro ⟨v, hv, hs, ht⟩; exact ⟨v, hv, hs, ht⟩
  · rintro ⟨v, hv, hs, ht⟩; exact ⟨v, hv, hs, ht⟩

theorem foldl_discoverStep_eq_some (S : List RVideo) :
    ∀ (m : String → Option Nat) (t : String) (i : Nat),
    S.foldl discoverStep m t = some i →
    (∃ v ∈ S, v.processingStatus = "succeeded" ∧ v.title = t ∧ v.id = i) ∨
      m t = some i := by
  induction S with
  | nil => intro m t i h; exact Or.inr h
  | cons v S ih =>
    intro m t i h
    rw [List.foldl_cons] at h
    rcases ih _ t i h with ⟨w, hw, hrest⟩ | hm
    · exact Or.inl ⟨w, List.mem_cons_of_mem _ hw, hrest⟩
    · by_cases hs : v.processingStatus = "succeeded"
      · rw [discoverStep_succ_eq m v hs] at hm
        by_cases ht : t = v.title
        · rw [if_pos ht] at hm
          refine Or.inl ⟨v, List.mem_cons_self _ _, hs, ht.symm, ?_⟩
          exact (Option.some.injEq _ _ ▸ hm)
        · rw [if_neg ht] at hm
          exact Or.inr hm
      · rw [discoverStep_notsucc_eq m v hs] at hm
        exact Or.inr hm

/-- A discovered id belongs to a succeeded candidate with that title. -/
theorem discover_eq_some (S : List RVideo) (t : String) (i : Nat)
    (h : discover S t = some i) :
    ∃ v ∈ S, v.processingStatus = "succeeded" ∧ v.title = t ∧ v.id = i := by
  rw [discover_eq_foldl] at h
  rcases foldl_discoverStep_eq_some S _ t i h with hv | hm
  · exact hv
  · simp at hm

/-- With distinct candidate ids, the discovered map is injective: two
titles resolving to the same id are equal. -/
theorem discover_inj (S : List RVideo) (hids : (S.map RVideo.id).Nodup)
    (t t' : String) (i : Nat)
    (h1 : discover S t = some i) (h2 : discover S t' = some i) : t = t' := by
  obtain ⟨v, hv, _, hvt, hvi⟩ := discover_eq_some S t i h1
  obtain ⟨w, hw, _, hwt, hwi⟩ := discover_eq_some S t' i h2
  have hvw : v = w :=
    List.inj_on_of_nodup_map hids hv hw (hvi.trans hwi.symm)
  rw [← hvt, ← hwt, hvw]

/-! ### Effect of a run's mutations on the remote state -/

theorem applyMutV_id (m : Mut) (v : RVideo) : (applyMutV m v).id = v.id := by
  cases m with
  | update vid t =>
    simp only [applyMutV]
    by_cases h : v.id = vid
    · rw [if_pos h]
    · rw [if_neg h]
  | add vid => rfl

theorem applyMutV_status (m : Mut) (v : RVideo) :
    (applyMutV m v).processingStatus = v.processingStatus := by
  cases m with
  | update vid t =>
    simp only [applyMutV]
    by_cases h : v.id = vid
    · rw [if_pos h]
    · rw [if_neg h]
  | add vid => rfl

theorem applyMutV_of_untargeted (m : Mut) (v : RVideo)
    (h : ∀ t, m ≠ .update v.id t) : applyMutV m v = v := by
  cases m with
  | update vid t =>
    simp only [applyMutV]
    rw [if_neg (fun he : v.id = vid => h t (by rw [he]))]
  | add vid => rfl

theorem finalVideo_nil (v : RVideo) : finalVideo [] v = v := rfl

theorem finalVideo_cons (m : Mut) (ms : List Mut) (v : RVideo) :
    finalVideo (m :: ms) v = finalVideo ms (applyMutV m v) := rfl

theorem finalVideo_append (ms1 ms2 : List Mut) (v : RVideo) :
    finalVideo (ms1 ++ ms2) v = finalVideo ms2 (finalVideo ms1 v) := by
  unfold finalVideo
  rw [List.foldl_append]

theorem finalVideo_id (ms : List Mut) (v : RVideo) :
    (finalVideo ms v).id = v.id := by
  induction ms generalizing v with
  | nil => rfl
  | cons m ms ih =>
    rw [finalVideo_cons, ih, applyMutV_id]

theorem finalVideo_status (ms : List Mut) (v : RVideo) :
    (finalVideo ms v).processingStatus = v.processingStatus := by
  induction ms generalizing v with
  | nil => rfl
  | cons m ms ih =>
    rw [finalVideo_cons, ih, applyMutV_status]

theorem finalVideo_of_untargeted (ms : List Mut) (v : RVideo)
    (h : ∀ t, Mut.update v.id t ∉ ms) : finalVideo ms v = v := by
  induction ms with
  | nil => rfl
  | cons m ms ih =>
    rw [finalVideo_cons, applyMutV_of_untargeted m v
      (fun t he => h t (he ▸ List.mem_cons_self _ _))]
    exact ih (fun t hmem => h t (List.mem_cons_of_mem _ hmem))

theorem finalVideo_title_cases (ms : List Mut) (v : RVideo) :
    (finalVideo ms v).title = v.title ∨
      ∃ t, Mut.update v.id t ∈ ms ∧ (finalVideo ms v).title = t := by
  induction ms generalizing v with
  | nil => exact Or.inl rfl
  | cons m ms ih =>
    rw [finalVideo_cons]
    rcases ih (applyMutV m v) with h | ⟨t, hmem, ht⟩
    · cases m with
      | update vid s =>
        by_cases hv : v.id = vid
        · refine Or.inr ⟨s, ?_, ?_⟩
          · rw [hv]; exact List.mem_cons_self _ _
          · rw [h]
            simp only [applyMutV]
            rw [if_pos hv]
        · have ha : applyMutV (Mut.update vid s) v = v :=
            applyMutV_of_untargeted _ _
              (fun t he => hv (Mut.update.injEq _ _ _ _ ▸ he).1.symm)
          rw [ha] at h ⊢
          exact Or.inl h
      | add vid =>
        exact Or.inl h
    · refine Or.inr ⟨t, ?_, ht⟩
      rw [applyMutV_id] at hmem
      exact List.mem_cons_of_mem _ hmem

theorem applyMuts_eq_map (ms : List Mut) (S : List RVideo) :
    applyMuts ms S = S.map (finalVideo ms) := by
  induction ms generalizing S with
  | nil =>
    show S = S.map (finalVideo [])
    exact (List.map_id _).symm
  | cons m ms ih =>
    have h1 : applyMuts (m :: ms) S = applyMuts ms (applyMut m S) := rfl
    rw [h1, ih (applyMut m S)]
    unfold applyMut
    rw [List.map_map]
    rfl

/-! ### Shape of one run's mutation list -/

/-- The mutating calls one clip entry contributes in a run where every
mutating response carries an id. -/
def entryMuts (u : String → Option Nat) (p : String × Clip) : List Mut :=
  match u p.2.name with
  | some _ => []
  | none =>
    match u p.1 with
    | none => []
    | some vid => [.update vid p.2.name, .add vid]

theorem entryMuts_mem (u : String → Option Nat) (p : String × Clip)
    (m : Mut) (hm : m ∈ entryMuts u p) :
    u p.2.name = none ∧ ∃ vid, u p.1 = some vid ∧
      (m = .update vid p.2.name ∨ m = .add vid) := by
  unfold entryMuts at hm
  cases hn : u p.2.name with
  | some v => rw [hn] at hm; simp at hm
  | none =>
    rw [hn] at hm
    cases hk : u p.1 with
    | none => rw [hk] at hm; simp at hm
    | some vid =>
      rw [hk] at hm
      refine ⟨rfl, vid, rfl, ?_⟩
      rcases List.mem_cons.mp hm with rfl | hm2
      · exact Or.inl rfl
      · rcases List.mem_cons.mp hm2 with rfl | hm3
        · exact Or.inr rfl
        · simp at hm3

/-- One unfolding step of the reconciliation walk. -/
theorem reconcile_cons (u : String → Option Nat) (updOk addOk : Nat → Bool)
    (t : String) (c : Clip) (rest : List (String × Clip)) :
    reconcile u updOk addOk ((t, c) :: rest) =
      match u c.name with
      | some _ => reconcile u updOk addOk rest
      | none =>
        match u t with
        | none => ([], .stopped)
        | some vid =>
          if updOk vid then
            if addOk vid then
              (Mut.update vid c.name :: Mut.add vid ::
                  (reconcile u updOk addOk rest).1,
                (reconcile u updOk addOk rest).2)
            else ([.update vid c.name, .add vid], .crashed)
          else ([.update vid c.name], .crashed) := rfl

/-- With all-ok responses the walk step simplifies. -/
theorem reconcile_cons_ok (u : String → Option Nat)
    (t : String) (c : Clip) (rest : List (String × Clip)) :
    reconcile u (fun _ => true) (fun _ => true) ((t, c) :: rest) =
      match u c.name with
      | some _ => reconcile u (fun _ => true) (fun _ => true) rest
      | none =>
        match u t with
        | none => ([], .stopped)
        | some vid =>
          (Mut.update vid c.name :: Mut.add vid ::
              (reconcile u (fun _ => true) (fun _ => true) rest).1,
            (reconcile u (fun _ => true) (fun _ => true) rest).2) := by
  rw [reconcile_cons]
  cases u c.name with
  | some v => rfl
  | none =>
    cases u t with
    | none => rfl
    | some vid => rfl

/-- Decomposition of one run with all-ok responses: the walked list splits
into a fully processed part `done` (each entry resolved, contributing its
`entryMuts`) and a remainder that is either empty or starts with the first
unresolved entry, where the walk stopped. -/
theorem reconcile_split (u : String → Option Nat)
    (l : List (String × Clip)) :
    ∃ done rest2, l = done ++ rest2 ∧
      (reconcile u (fun _ => true) (fun _ => true) l).1 =
        done.flatMap (entryMuts u) ∧
      (∀ p ∈ done, u p.2.name ≠ none ∨ u p.1 ≠ none) ∧
      (rest2 = [] ∨ ∃ p rest3, rest2 = p :: rest3 ∧
        u p.2.name = none ∧ u p.1 = none) := by
  induction l with
  | nil => exact ⟨[], [], rfl, rfl, by simp, Or.inl rfl⟩
  | cons p l ih =>
    obtain ⟨done, rest2, hsplit, hmuts, hres, hrest⟩ := ih
    obtain ⟨t, c⟩ := p
    cases hn : u c.name with
    | some vid =>
      refine ⟨(t, c) :: done, rest2, by rw [List.cons_append, hsplit],
        ?_, ?_, hrest⟩
      · rw [reconcile_cons_ok, hn]
        dsimp only
        rw [List.flatMap_cons]
        have he : entryMuts u (t, c) = [] := by
          simp only [entryMuts, hn]
        rw [he, List.nil_append, hmuts]
      · intro q hq
        rcases List.mem_cons.mp hq with rfl | hq2
        · exact Or.inl (by rw [hn]; exact Option.some_ne_none vid)
        · exact hres q hq2
    | none =>
      cases hk : u t with
      | some vid =>
        refine ⟨(t, c) :: done, rest2, by rw [List.cons_append, hsplit],
          ?_, ?_, hrest⟩
        · rw [reconcile_cons_ok, hn, hk]
          dsimp only
          rw [List.flatMap_cons]
          have he : entryMuts u (t, c) = [.update vid c.name, .add vid] := by
            simp only [entryMuts, hn, hk]
          rw [he, hmuts]
          rfl
        · intro q hq
          rcases List.mem_cons.mp hq with rfl | hq2
          · exact Or.inr (by rw [hk]; exact Option.some_ne_none vid)
          · exact hres q hq2
      | none =>
        refine ⟨[], (t, c) :: l, rfl, ?_, by simp,
          Or.inr ⟨(t, c), l, rfl, hn, hk⟩⟩
        rw [reconcile_cons_ok, hn, hk]
        rfl

/-- If every entry of `done` resolves by final name and the remainder is
empty or starts with a doubly-unresolved entry, the walk issues nothing. -/
theorem reconcile_no_muts (u : String → Option Nat)
    (updOk addOk : Nat → Bool) (done rest2 : List (String × Clip))
    (hdone : ∀ p ∈ done, u p.2.name ≠ none)
    (hrest : rest2 = [] ∨ ∃ p rest3, rest2 = p :: rest3 ∧
      u p.2.name = none ∧ u p.1 = none) :
    (reconcile u updOk addOk (done ++ rest2)).1 = [] := by
  induction done with
  | nil =>
    rcases hrest with rfl | ⟨p, rest3, rfl, hn, hk⟩
    · rfl
    · obtain ⟨t, c⟩ := p
      rw [List.nil_append, reconcile_cons, hn, hk]
  | cons p done ih =>
    obtain ⟨t, c⟩ := p
    have hn := hdone (t, c) (List.mem_cons_self _ _)
    cases hval : u c.name with
    | none => exact absurd hval hn
    | some vid =>
      rw [List.cons_append, reconcile_cons, hval]
      dsimp only
      exact ih (fun q hq => hdone q (List.mem_cons_of_mem _ hq))

/-- No update in the contributions of entries whose keys all resolve away
from `v` can target video `v`. -/
theorem flatMap_entryMuts_untargeted (u : String → Option Nat)
    (d : List (String × Clip)) (v : Nat)
    (h : ∀ q ∈ d, ∀ vid, u q.1 = some vid → vid ≠ v) :
    ∀ ttl, Mut.update v ttl ∉ d.flatMap (entryMuts u) := by
  intro ttl hmem
  obtain ⟨q, hq, hm⟩ := List.mem_flatMap.mp hmem
  obtain ⟨hn, vid, hk, hcase⟩ := entryMuts_mem u q _ hm
  rcases hcase with he | he
  · obtain ⟨hv, -⟩ := Mut.update.inj he
    exact (h q hq vid hk) hv.symm
  · exact Mut.noConfusion he

/-- Every update in a run's mutation list targets the id resolved from some
walked entry's expected title and carries that entry's final name. -/
theorem flatMap_entryMuts_update_char (u : String → Option Nat)
    (d : List (String × Clip)) (v : Nat) (ttl : String)
    (hmem : Mut.update v ttl ∈ d.flatMap (entryMuts u)) :
    ∃ q ∈ d, u q.2.name = none ∧ u q.1 = some v ∧ ttl = q.2.name := by
  obtain ⟨q, hq, hm⟩ := List.mem_flatMap.mp hmem
  obtain ⟨hn, vid, hk, hcase⟩ := entryMuts_mem u q _ hm
  rcases hcase with he | he
  · obtain ⟨hv, ht⟩ := Mut.update.inj he
    exact ⟨q, hq, hn, by rw [hv]; exact hk, ht⟩
  · exact Mut.noConfusion he

/-- C2 amended: against an unchanged remote whose video ids are distinct,
and provided no clip's final name coincides with another clip's final name
or with any clip's expected title, a second run of the reconciler after the
first one's mutations performs zero mutating calls; and in any single run an
entry whose final name is among the discovered titles contributes no
mutating call. -/
theorem C2_amended_idempotent (S : List RVideo)
    (clips : List (String × Clip))
    (hids : (S.map RVideo.id).Nodup)
    (hkeys : (clips.map Prod.fst).Nodup)
    (hnames : (clips.map (fun p => p.2.name)).Nodup)
    (halias : ∀ p ∈ clips, ∀ q ∈ clips, p.2.name ≠ q.1) :
    runMuts (applyMuts (runMuts S clips) S) clips = [] ∧
    (∀ (u : String → Option Nat) (updOk addOk : Nat → Bool) (t : String)
        (c : Clip) (rest : List (String × Clip)) (vid : Nat),
        u c.name = some vid →
        reconcile u updOk addOk ((t, c) :: rest) =
          reconcile u updOk addOk rest) := by
  refine ⟨?_, fun u updOk addOk t c rest vid h => by rw [reconcile_cons, h]⟩
  obtain ⟨done, rest2, hsplit, hmuts, hres, hrest⟩ :=
    reconcile_split (discover S) clips
  have hmuts1 : runMuts S clips = done.flatMap (entryMuts (discover S)) :=
    hmuts
  have hdone_clips : ∀ p ∈ done, p ∈ clips := by
    intro p hp
    rw [hsplit]
    exact List.mem_append_left rest2 hp
  have hkeys_done : (done.map Prod.fst).Nodup := by
    have h2 := hkeys
    rw [hsplit, List.map_append] at h2
    exact h2.of_append_left
  have P1 : ∀ p ∈ done,
      discover (applyMuts (runMuts S clips) S) p.2.name ≠ none := by
    intro p hp
    by_cases hn : discover S p.2.name = none
    · -- the entry resolved through its expected title; run 1 renamed the
      -- resolved video to the entry's final name
      have hkne : discover S p.1 ≠ none := by
        rcases hres p hp with h | h
        · exact absurd hn h
        · exact h
      obtain ⟨v, hv⟩ := Option.ne_none_iff_exists'.mp hkne
      obtain ⟨w, hwS, hwstat, hwtitle, hwid⟩ := discover_eq_some S p.1 v hv
      obtain ⟨d1, d2, hdecomp⟩ := List.append_of_mem hp
      have hkd := hkeys_done
      rw [hdecomp, List.map_append, List.map_cons] at hkd
      obtain ⟨hnd1, hnd2, hdisj⟩ := List.nodup_append.mp hkd
      have ht_d1 : p.1 ∉ d1.map Prod.fst := fun hmem =>
        hdisj hmem (List.mem_cons_self _ _)
      have ht_d2 : p.1 ∉ d2.map Prod.fst := (List.nodup_cons.mp hnd2).1
      have hmm : runMuts S clips =
          d1.flatMap (entryMuts (discover S)) ++
            (entryMuts (discover S) p ++
              d2.flatMap (entryMuts (discover S))) := by
        rw [hmuts1, hdecomp, List.flatMap_append, List.flatMap_cons]
      have hentry : entryMuts (discover S) p =
          [.update v p.2.name, .add v] := by
        simp only [entryMuts, hn, hv]
      have hside : ∀ (d : List (String × Clip)),
          (p.1 ∉ d.map Prod.fst) →
          ∀ ttl, Mut.update w.id ttl ∉
            d.flatMap (entryMuts (discover S)) := by
        intro d hnotin ttl
        apply flatMap_entryMuts_untargeted
        intro q hq vid hk he
        rw [he, hwid] at hk
        have hqt : q.1 = p.1 := discover_inj S hids q.1 p.1 v hk hv
        exact hnotin (hqt ▸ List.mem_map_of_mem Prod.fst hq)
      have hBw : finalVideo [Mut.update v p.2.name, Mut.add v] w =
          ⟨w.id, p.2.name, w.processingStatus⟩ := by
        rw [finalVideo_cons, finalVideo_cons, finalVideo_nil]
        simp only [applyMutV]
        rw [if_pos hwid]
      have hfv : finalVideo (runMuts S clips) w =
          ⟨w.id, p.2.name, w.processingStatus⟩ := by
        rw [hmm, finalVideo_append, finalVideo_of_untargeted _ _
          (hside d1 ht_d1), hentry, finalVideo_append, hBw,
          finalVideo_of_untargeted _
            ⟨w.id, p.2.name, w.processingStatus⟩ (hside d2 ht_d2)]
      have hw' : (⟨w.id, p.2.name, w.processingStatus⟩ : RVideo) ∈
          applyMuts (runMuts S clips) S := by
        rw [applyMuts_eq_map]
        have hmem := List.mem_map_of_mem (finalVideo (runMuts S clips)) hwS
        rw [hfv] at hmem
        exact hmem
      intro hcon
      rw [discover_eq_none_iff] at hcon
      exact hcon _ hw' hwstat rfl
    · -- the entry resolved directly through its final name; the video
      -- carrying that name is untouched by run 1
      obtain ⟨v, hv⟩ := Option.ne_none_iff_exists'.mp hn
      obtain ⟨w, hwS, hwstat, hwtitle, hwid⟩ :=
        discover_eq_some S p.2.name v hv
      have huntargeted : ∀ ttl,
          Mut.update w.id ttl ∉ runMuts S clips := by
        intro ttl hmem
        rw [hmuts1] at hmem
        obtain ⟨q, hq, hqn, hqk, hqt⟩ :=
          flatMap_entryMuts_update_char _ _ _ _ hmem
        rw [hwid] at hqk
        have he : p.2.name = q.1 :=
          discover_inj S hids p.2.name q.1 v hv hqk
        exact halias p (hdone_clips p hp) q (hdone_clips q hq) he
      have hfvw : finalVideo (runMuts S clips) w = w :=
        finalVideo_of_untargeted _ _ huntargeted
      have hw' : w ∈ applyMuts (runMuts S clips) S := by
        rw [applyMuts_eq_map]
        have hmem := List.mem_map_of_mem (finalVideo (runMuts S clips)) hwS
        rw [hfvw] at hmem
        exact hmem
      intro hcon
      rw [discover_eq_none_iff] at hcon
      exact hcon w hw' hwstat hwtitle
  rcases hrest with rfl | ⟨p0, rest3, hr2, hn0, hk0⟩
  · have hz := reconcile_no_muts
      (discover (applyMuts (runMuts S clips) S))
      (fun _ => true) (fun _ => true) done [] P1 (Or.inl rfl)
    rw [← hsplit] at hz
    exact hz
  · subst hr2
    have hnm := hnames
    rw [hsplit, List.map_append, List.map_cons] at hnm
    obtain ⟨hn1, hn2, hdisj⟩ := List.nodup_append.mp hnm
    have hp0name : p0.2.name ∉ done.map (fun p => p.2.name) :=
      fun hmem => hdisj hmem (List.mem_cons_self _ _)
    have hp0clips : p0 ∈ clips := by
      rw [hsplit]
      exact List.mem_append_right _ (List.mem_cons_self _ _)
    have hnone : ∀ X : String, discover S X = none →
        (∀ q ∈ done, q.2.name ≠ X) →
        discover (applyMuts (runMuts S clips) S) X = none := by
      intro X hX hqX
      rw [discover_eq_none_iff]
      intro w' hw' hstat htitle
      rw [applyMuts_eq_map] at hw'
      obtain ⟨w, hwS, rfl⟩ := List.mem_map.mp hw'
      have hstat' : w.processingStatus = "succeeded" := by
        rw [← finalVideo_status (runMuts S clips) w]
        exact hstat
      rcases finalVideo_title_cases (runMuts S clips) w with
        ht | ⟨ttl, hmem, ht⟩
      · rw [discover_eq_none_iff] at hX
        exact hX w hwS hstat' (by rw [← ht]; exact htitle)
      · rw [hmuts1] at hmem
        obtain ⟨q, hq, hqn, hqk, hqt⟩ :=
          flatMap_entryMuts_update_char _ _ _ _ hmem
        have he : q.2.name = X := by rw [← hqt, ← ht, htitle]
        exact hqX q hq he
    have hnone_name : discover (applyMuts (runMuts S clips) S)
        p0.2.name = none :=
      hnone _ hn0 (fun q hq he =>
        hp0name (List.mem_map.mpr ⟨q, hq, he⟩))
    have hnone_key : discover (applyMuts (runMuts S clips) S)
        p0.1 = none :=
      hnone _ hk0 (fun q hq he =>
        halias q (hdone_clips q hq) p0 hp0clips he)
    have hz := reconcile_no_muts
      (discover (applyMuts (runMuts S clips) S))
      (fun _ => true) (fun _ => true) done (p0 :: rest3) P1
      (Or.inr ⟨p0, rest3, rfl, hnone_name, hnone_key⟩)
    rw [← hsplit] at hz
    exact hz

/-- Witness for C2 amended at a concrete remote state and clip dict. -/
theorem C2_amended_idempotent_witness :
    runMuts
        (applyMuts
          (runMuts [⟨1, "a 10 20", "succeeded"⟩]
            [("a 10 20", ⟨"a.mp4", .fin 0, .fin 1, "My Clip", ""⟩)])
          [⟨1, "a 10 20", "succeeded"⟩])
        [("a 10 20", ⟨"a.mp4", .fin 0, .fin 1, "My Clip", ""⟩)] = [] ∧
    reconcile (fun t => if t = "My Clip" then some 7 else none)
        (fun _ => true) (fun _ => true)
        [("k", ⟨"a.mp4", .fin 0, .fin 1, "My Clip", ""⟩)] =
      reconcile (fun t => if t = "My Clip" then some 7 else none)
        (fun _ => true) (fun _ => true) [] :=
  have h := C2_amended_idempotent [⟨1, "a 10 20", "succeeded"⟩]
    [("a 10 20", ⟨"a.mp4", .fin 0, .fin 1, "My Clip", ""⟩)]
    (by decide) (by decide) (by decide) (by decide)
  ⟨h.1, h.2 (fun t => if t = "My Clip" then some 7 else none)
    (fun _ => true) (fun _ => true) "k"
    ⟨"a.mp4", .fin 0, .fin 1, "My Clip", ""⟩ [] 7 (by decide)⟩

/-- C3 amended: a candidate video is recorded into the discovered
title-to-id map iff its processing status is exactly `"succeeded"`; every
other status — the non-terminal `"processing"` but also terminal
non-succeeded ones — is skipped with a diagnostic and is not eligible for
reconciliation matching. -/
theorem C3_amended_recorded_iff (S : List RVideo) (t : String) :
    (discover S t).isSome ↔
      ∃ v ∈ S, v.processingStatus = "succeeded" ∧ v.title = t :=
  discover_isSome_iff S t

/-! ## `get_playlist_videos` and claim C10 -/

/-- The loop of `get_playlist_videos`: for each video pulled from the
composed `get_videos` generator, first test `limit == 0` and break, then
decrement and yield.  Python integers are unbounded, hence `Int`. -/
def playlistTake {α : Type} : Int → List α → List α
  | _, [] => []
  | limit, v :: rest =>
    if limit = 0 then [] else v :: playlistTake (limit - 1) rest

/-- `YouTubeAPIClient.get_playlist_videos` over the underlying stream
`videos` (what the composed `get_videos` generator would yield for the
playlist's items).  The Bool records whether the loop ran at all, i.e.
whether the generator was pulled at least once — the first pull is what
issues the initial `playlistItems.list` request.  `limit=None` becomes
`-1`, which the loop decrements forever without reaching `0`; a negative
explicit limit returns before the loop. -/
def get_playlist_videos {α : Type} (limit : Option Int) (videos : List α) :
    List α × Bool :=
  match limit with
  | none => (playlistTake (-1) videos, true)
  | some l => if l < 0 then ([], false) else (playlistTake l videos, true)

theorem playlistTake_of_neg {α : Type} :
    ∀ (videos : List α) (l : Int), l < 0 → playlistTake l videos = videos := by
  intro videos
  induction videos with
  | nil => intro l _; rfl
  | cons v rest ih =>
    intro l hl
    unfold playlistTake
    rw [if_neg (by omega)]
    rw [ih (l - 1) (by omega)]

theorem playlistTake_length_le {α : Type} :
    ∀ (videos : List α) (n : Int), 0 ≤ n →
      ((playlistTake n videos).length : Int) ≤ n := by
  intro videos
  induction videos with
  | nil => intro n hn; simpa [playlistTake] using hn
  | cons v rest ih =>
    intro n hn
    unfold playlistTake
    by_cases h0 : n = 0
    · rw [if_pos h0]
      simp [h0]
    · rw [if_neg h0]
      have := ih (n - 1) (by omega)
      simp only [List.length_cons]
      push_cast
      omega

/-- C10: a strictly negative explicit limit yields no videos and issues no
underlying request; `limit=None` enumerates the whole stream; a limit
`n >= 0` yields at most `n` videos; and limit `0` yields nothing although
the loop still pulls the generator once (issuing the listing request)
before testing the bound. -/
theorem C10_playlist_limit {α : Type} (videos : List α) :
    (∀ l : Int, l < 0 → get_playlist_videos (some l) videos = ([], false)) ∧
    get_playlist_videos (none : Option Int) videos = (videos, true) ∧
    (∀ n : Int, 0 ≤ n →
      ((get_playlist_videos (some n) videos).1.length : Int) ≤ n) ∧
    get_playlist_videos (some 0) videos = ([], true) := by
  refine ⟨?_, ?_, ?_, ?_⟩
  · intro l hl
    unfold get_playlist_videos
    dsimp only
    rw [if_pos hl]
  · unfold get_playlist_videos
    dsimp only
    rw [playlistTake_of_neg videos (-1) (by omega)]
  · intro n hn
    unfold get_playlist_videos
    dsimp only
    rw [if_neg (by omega)]
    exact playlistTake_length_le videos n hn
  · unfold get_playlist_videos
    dsimp only
    rw [if_neg (by omega)]
    cases videos with
    | nil => rfl
    | cons v rest =>
      unfold playlistTake
      rw [if_pos rfl]

/-- Witness for C10 at a concrete stream. -/
theorem C10_playlist_limit_witness :
    get_playlist_videos (some (-3)) [10, 20, 30] = ([], false) ∧
    get_playlist_videos (none : Option Int) [10, 20, 30] =
      ([10, 20, 30], true) ∧
    ((get_playlist_videos (some 2) [10, 20, 30]).1.length : Int) ≤ 2 ∧
    get_playlist_videos (some 0) [10, 20, 30] = ([], true) :=
  have h := C10_playlist_limit [10, 20, 30]
  ⟨h.1 (-3) (by decide), h.2.1, h.2.2.1 2 (by decide), h.2.2.2⟩

/-! ## `update_video` and the persistent cache, claim C5

The cache (`self.cache["videos"]`) holds raw JSON-like video metadata.  We
model JSON values as strings and ordered string-keyed objects (a mutual
inductive so that all operations are structurally recursive), with Python
dict semantics: assignment replaces an existing key in place, otherwise
appends. -/

mutual
inductive JVal where
  | str : String → JVal
  | obj : JObj → JVal
inductive JObj where
  | nil : JObj
  | cons : String → JVal → JObj → JObj
end

/-- `d.get(k)` on a Python dict. -/
def jget : JObj → String → Option JVal
  | .nil, _ => none
  | .cons k v rest, key => if key = k then some v else jget rest key

/-- `d.get(k, default)`. -/
def jgetD (d : JObj) (key : String) (dflt : JVal) : JVal :=
  match jget d key with
  | some v => v
  | none => dflt

/-- `d[k] = v` on a Python dict: replace in place, else append. -/
def jset : JObj → String → JVal → JObj
  | .nil, key, v => .cons key v .nil
  | .cons k w rest, key, v =>
    if key = k then .cons k v rest else .cons k w (jset rest key v)

/-- `youtube.walk_dict`: walk nested mappings, `None` as soon as a step is
not a mapping or the key is absent. -/
def walk_dict : Option JVal → List String → Option JVal
  | d, [] => d
  | some (JVal.obj fields), k :: rest => walk_dict (jget fields k) rest
  | _, _ :: _ => none

/-- `youtube.update_deep (d, u)`, over the fields of `u`: a mapping value
recurses into `d.get(k, {})`, anything else is assigned.  Assigning into a
non-mapping `d` raises in Python (`TypeError` / `AttributeError`); the
model returns `Except.error` there (the order of the two checks differs
from CPython's evaluation order but both raise on the same inputs).  The
path is unreachable for the well-formed bodies `update_video` builds. -/
def update_deep : JVal → JObj → Except Unit JVal
  | d, .nil => .ok d
  | .str _, .cons _ _ _ => .error ()
  | .obj ds, .cons k v rest =>
    match v with
    | .obj us =>
      match update_deep (jgetD ds k (.obj .nil)) us with
      | .ok sub => update_deep (JVal.obj (jset ds k sub)) rest
      | .error e => .error e
    | .str s => update_deep (JVal.obj (jset ds k (JVal.str s))) rest

/-- `YouTubeAPIClient.update_video`, at the cache level: `videos` is the
`self.cache["videos"]` dict, `remote` the outcome of the
`client.videos().update(...).execute()` call (`Except.error` models a
raised exception).  The code sets `body["id"] = video_id`, then — before
issuing the remote call — deep-merges `body` into the cached entry for
`video_id` when one exists (`KeyError` is swallowed when it does not). -/
def update_video (videos : JObj) (video_id : String) (body : JObj)
    (remote : Except Unit JVal) : JObj × Except Unit JVal :=
  let body2 := jset body "id" (JVal.str video_id)
  match jget videos video_id with
  | none => (videos, remote)
  | some video =>
    match update_deep video body2 with
    | .ok v2 => (jset videos video_id v2, remote)
    | .error _ => (videos, .error ())

/-- String content of an optional JSON value. -/
def jstr : Option JVal → Option String
  | some (JVal.str s) => some s
  | _ => none

/-- Whether the result of `update_video` is a raised exception. -/
def isRemoteErr : Except Unit JVal → Bool
  | .error _ => true
  | .ok _ => false

/-- C5 counterexample: the cache is written *before* the remote call, so
when the remote `videos().update` call raises, the cached entry still
reflects the attempted update — here its `snippet.title` has become
`"new"` although the original cached entry said `"old"` and the remote
call failed. -/
theorem C5_counterexample :
    jstr (walk_dict
        (jget (update_video
          (JObj.cons "v" (JVal.obj (JObj.cons "snippet"
            (JVal.obj (JObj.cons "title" (JVal.str "old") .nil)) .nil)) .nil)
          "v"
          (JObj.cons "snippet"
            (JVal.obj (JObj.cons "title" (JVal.str "new") .nil)) .nil)
          (Except.error ())).1 "v")
        ["snippet", "title"]) = some "new" ∧
    jstr (walk_dict
        (jget (JObj.cons "v" (JVal.obj (JObj.cons "snippet"
          (JVal.obj (JObj.cons "title" (JVal.str "old") .nil)) .nil)) .nil)
          "v")
        ["snippet", "title"]) = some "old" ∧
    (some "new" : Option String) ≠ some "old" ∧
    isRemoteErr (update_video
        (JObj.cons "v" (JVal.obj (JObj.cons "snippet"
          (JVal.obj (JObj.cons "title" (JVal.str "old") .nil)) .nil)) .nil)
        "v"
        (JObj.cons "snippet"
          (JVal.obj (JObj.cons "title" (JVal.str "new") .nil)) .nil)
        (Except.error ())).2 = true := by
  refine ⟨rfl, rfl, by decide, rfl⟩

/-- C5 amended: `update_video` writes the cache before the remote call,
unconditionally on the call's outcome: the resulting cache state is the
same whether the remote call succeeds or raises (so after a failure the
cache reflects the attempted update rather than the pre-call state). -/
theorem C5_amended_cache_written_before_call (videos : JObj)
    (video_id : String) (body : JObj) (remote : Except Unit JVal) :
    (update_video videos video_id body remote).1 =
      (update_video videos video_id body (Except.error ())).1 := by
  cases hj : jget videos video_id with
  | none => simp only [update_video, hj]
  | some video =>
    simp only [update_video, hj]
    cases hu : update_deep video (jset body "id" (JVal.str video_id)) with
    | ok v2 => simp only [hu]
    | error e => simp only [hu]

/-! ## The catalog cache (`YouTubeAPIClient.VideoGetter`), claims C1 and C6

`VideoGetter.__next__` is a buffered, batched pull over the requested ids:
cached-terminal ids met while the pending API batch is empty are returned
immediately; otherwise ids accumulate into an `OrderedDict` buffer
(`videos_to_return`) and an API batch of at most 50 ids, which is then
fetched, merged into the cache and released in buffer order.  `drainVideos`
is the full iteration of the getter: the list of all videos yielded, the
API batches issued (`ids_joined` per call), and the id of the
`Unknown video ID` ValueError, if raised.  Ids are modelled as `Nat`; the
remote fetch is an oracle from the batch to the returned video list. -/

/-- A video as held in the getter's cache, keyed by id;
`processingStatus` is `walk_dict(video, "processingDetails",
"processingStatus")` (`none` when absent). -/
structure CVideo where
  id : Nat
  processingStatus : Option String
  deriving DecidableEq, Repr

/-- The cached-and-terminal test of `__next__`:
`processing_status and processing_status != "processing"`, on the cached
entry if any. -/
def cachedTerminal (cache : Nat → Option CVideo) (i : Nat) :
    Option CVideo :=
  match cache i with
  | none => none
  | some v =>
    match v.processingStatus with
    | none => none
    | some s => if s ≠ "" ∧ s ≠ "processing" then some v else none

/-- `OrderedDict` assignment: update the value in place if the key exists
(keeping its position), else append. -/
def odSet (l : List (Nat × Option CVideo)) (k : Nat) (v : Option CVideo) :
    List (Nat × Option CVideo) :=
  if l.any (fun p => p.1 = k) then
    l.map (fun p => if p.1 = k then (k, v) else p)
  else l ++ [(k, v)]

/-- Result of the id-collecting `while` loop of `__next__`:
the `videos_to_return` buffer, the `ids_to_get_from_api` batch, the ids not
yet consumed, and the immediately returned video, if the loop exited by
returning a cached hit while the batch was empty. -/
structure CollectRes where
  out : List (Nat × Option CVideo)
  batch : List Nat
  rest : List Nat
  immediate : Option CVideo
  deriving Repr

/-- The `while len(ids_to_get_from_api) != 50` loop of `__next__`: check
the batch bound, pull the next id, return a cached-terminal hit at once if
the batch is empty, otherwise buffer it; a non-terminal id is buffered as
pending (`None`) and appended to the batch. -/
def collect (cache : Nat → Option CVideo) :
    List Nat → List (Nat × Option CVideo) → List Nat → CollectRes
  | [], vtr, batch => ⟨vtr, batch, [], none⟩
  | i :: rest, vtr, batch =>
    if batch.length = 50 then ⟨vtr, batch, i :: rest, none⟩
    else
      match cachedTerminal cache i with
      | some v =>
        if batch.isEmpty then ⟨vtr, batch, rest, some v⟩
        else collect cache rest (odSet vtr i (some v)) batch
      | none => collect cache rest (odSet vtr i none) (batch ++ [i])

/-- Merging the fetched videos into the cache (`cache[id] = video`, keyed
by the video's own `id` field). -/
def mergeCache (fetched : List CVideo) (cache : Nat → Option CVideo) :
    Nat → Option CVideo :=
  fetched.foldl (fun c v => fun i => if i = v.id then some v else c i) cache

/-- Filling the buffer from the fetched videos
(`if id in videos_to_return: videos_to_return[id] = video`). -/
def mergeVtr (fetched : List CVideo) (l : List (Nat × Option CVideo)) :
    List (Nat × Option CVideo) :=
  fetched.foldl
    (fun l v =>
      if l.any (fun p => p.1 = v.id) then odSet l v.id (some v) else l) l

/-- The full iteration of a `VideoGetter`, fuelled (each round of `__next__`
consumes at least one id, so `ids.length + 1` fuel always suffices; see
`drainVideos`).  Returns (yielded videos, issued API batches, unknown-id
error).  A round with an empty buffer is the `StopIteration`; a buffered
pending id missing from the fetch result raises `ValueError` after the
fetch (so the batch was issued but nothing more is yielded). -/
def drainF (api : List Nat → List CVideo) :
    Nat → (Nat → Option CVideo) → List Nat →
    List CVideo × List (List Nat) × Option Nat
  | 0, _, _ => ([], [], none)
  | fuel + 1, cache, ids =>
    match collect cache ids [] [] with
    | ⟨_, _, rest, some v⟩ =>
      let rec2 := drainF api fuel cache rest
      (v :: rec2.1, rec2.2.1, rec2.2.2)
    | ⟨out, batch, rest, none⟩ =>
      if out.isEmpty then ([], [], none)
      else if batch.isEmpty then
        let outs := out.filterMap (fun p => p.2)
        let rec2 := drainF api fuel cache rest
        (outs ++ rec2.1, rec2.2.1, rec2.2.2)
      else
        let fetched := api batch
        let vtr2 := mergeVtr fetched out
        match vtr2.find? (fun p => p.2.isNone) with
        | some p => ([], [batch], some p.1)
        | none =>
          let outs := vtr2.filterMap (fun p => p.2)
          let rec2 := drainF api fuel (mergeCache fetched cache) rest
          (outs ++ rec2.1, batch :: rec2.2.1, rec2.2.2)

/-- Everything a `VideoGetter` over `ids` yields, with the API batches it
issues and the unknown-id error if one is raised. -/
def drainVideos (api : List Nat → List CVideo)
    (cache : Nat → Option CVideo) (ids : List Nat) :
    List CVideo × List (List Nat) × Option Nat :=
  drainF api (ids.length + 1) cache ids

/-- C1 counterexample: two occurrences of the same uncached id collapse
into the single `OrderedDict` buffer slot, so the getter yields one entry
for the two requested ids, not one per input id. -/
theorem C1_counterexample :
    drainVideos (fun _ => [⟨7, some "succeeded"⟩]) (fun _ => none)
        [7, 7] =
      ([⟨7, some "succeeded"⟩], [[7, 7]], none) ∧
    ([(⟨7, some "succeeded"⟩ : CVideo)]).length ≠ [7, 7].length := by
  decide

/-- One step of `drainF` at positive fuel. -/
theorem drainF_succ (api : List Nat → List CVideo) (fuel : Nat)
    (cache : Nat → Option CVideo) (ids : List Nat) :
    drainF api (fuel + 1) cache ids =
      match collect cache ids [] [] with
      | ⟨_, _, rest, some v⟩ =>
        let rec2 := drainF api fuel cache rest
        (v :: rec2.1, rec2.2.1, rec2.2.2)
      | ⟨out, batch, rest, none⟩ =>
        if out.isEmpty then ([], [], none)
        else if batch.isEmpty then
          let outs := out.filterMap (fun p => p.2)
          let rec2 := drainF api fuel cache rest
          (outs ++ rec2.1, rec2.2.1, rec2.2.2)
        else
          let fetched := api batch
          let vtr2 := mergeVtr fetched out
          match vtr2.find? (fun p => p.2.isNone) with
          | some p => ([], [batch], some p.1)
          | none =>
            let outs := vtr2.filterMap (fun p => p.2)
            let rec2 := drainF api fuel (mergeCache fetched cache) rest
            (outs ++ rec2.1, batch :: rec2.2.1, rec2.2.2) := rfl

/-- If a cached-terminal hit is returned immediately, it is the cached
video of the first id. -/
theorem cachedTerminal_cache_eq (cache : Nat → Option CVideo) (i : Nat)
    (v : CVideo) (h : cachedTerminal cache i = some v) :
    cache i = some v := by
  unfold cachedTerminal at h
  cases hc : cache i with
  | none => rw [hc] at h; exact Option.noConfusion h
  | some w =>
    rw [hc] at h
    dsimp only at h
    cases hs : w.processingStatus with
    | none => rw [hs] at h; exact Option.noConfusion h
    | some s =>
      rw [hs] at h
      dsimp only at h
      by_cases hcond : s ≠ "" ∧ s ≠ "processing"
      · rw [if_pos hcond] at h
        exact h
      · rw [if_neg hcond] at h
        exact Option.noConfusion h

/-- Every run over ids that are all cached with terminal status issues no
API call, raises no error, and yields the cached entries in input order. -/
theorem drainF_all_cached (api : List Nat → List CVideo)
    (cache : Nat → Option CVideo) :
    ∀ (ids : List Nat) (fuel : Nat), ids.length < fuel →
    (∀ i ∈ ids, cachedTerminal cache i ≠ none) →
    drainF api fuel cache ids =
      (ids.filterMap (cachedTerminal cache), [], none) := by
  intro ids
  induction ids with
  | nil =>
    intro fuel hf _
    cases fuel with
    | zero => omega
    | succ n => rw [drainF_succ]; rfl
  | cons i rest ih =>
    intro fuel hf hall
    cases fuel with
    | zero => omega
    | succ n =>
      obtain ⟨v, hv⟩ := Option.ne_none_iff_exists'.mp
        (hall i (List.mem_cons_self _ _))
      have hcol : collect cache (i :: rest) [] [] = ⟨[], [], rest, some v⟩ := by
        unfold collect
        rw [if_neg (by simp), hv]
        rfl
      rw [drainF_succ, hcol]
      dsimp only
      have hrec := ih n (by simpa using hf)
        (fun j hj => hall j (List.mem_cons_of_mem _ hj))
      rw [hrec]
      simp [List.filterMap_cons, hv]

set_option maxRecDepth 4000

/-- C6: with 120 distinct ids and nothing cached, the getter issues exactly
3 batched fetches carrying 50, 50 and 20 ids and yields all 120 entries in
the original input order; an empty id sequence, and any sequence entirely
cached with terminal status, issue zero remote calls. -/
theorem C6_batching :
    (drainVideos (fun b => b.map (fun i => ⟨i, some "succeeded"⟩))
        (fun _ => none) (List.range 120) =
      ((List.range 120).map (fun i => ⟨i, some "succeeded"⟩),
        [List.range' 0 50, List.range' 50 50, List.range' 100 20], none)) ∧
    ((List.range' 0 50).length = 50 ∧ (List.range' 50 50).length = 50 ∧
      (List.range' 100 20).length = 20) ∧
    (∀ (api : List Nat → List CVideo) (cache : Nat → Option CVideo),
      drainVideos api cache [] = ([], [], none)) ∧
    (∀ (api : List Nat → List CVideo) (cache : Nat → Option CVideo)
        (ids : List Nat),
      (∀ i ∈ ids, cachedTerminal cache i ≠ none) →
      drainVideos api cache ids =
        (ids.filterMap (cachedTerminal cache), [], none)) := by
  refine ⟨by decide, by decide, fun api cache => rfl, ?_⟩
  intro api cache ids hall
  exact drainF_all_cached api cache ids (ids.length + 1) (by omega) hall

/-- Witness for C6's universally quantified parts at concrete inputs. -/
theorem C6_batching_witness :
    drainVideos (fun _ => []) (fun i => some ⟨i, some "succeeded"⟩)
        [3, 1, 2] =
      ([⟨3, some "succeeded"⟩, ⟨1, some "succeeded"⟩,
        ⟨2, some "succeeded"⟩], [], none) ∧
    drainVideos (fun _ => []) (fun _ => none) [] = ([], [], none) := by
  have h := C6_batching
  refine ⟨?_, h.2.2.1 (fun _ => []) (fun _ => none)⟩
  have h2 := h.2.2.2 (fun _ => [])
    (fun i => some ⟨i, some "succeeded"⟩) [3, 1, 2] (by decide)
  rw [h2]
  rfl

/-! ### Ordering invariants of the getter's buffer -/

theorem odSet_any_iff (l : List (Nat × Option CVideo)) (k : Nat) :
    (l.any (fun p => p.1 = k) = true) ↔ k ∈ l.map Prod.fst := by
  simp [List.any_eq_true, List.mem_map]

theorem odSet_keys_of_mem (l : List (Nat × Option CVideo)) (k : Nat)
    (v : Option CVideo) (h : k ∈ l.map Prod.fst) :
    (odSet l k v).map Prod.fst = l.map Prod.fst := by
  unfold odSet
  rw [if_pos ((odSet_any_iff l k).mpr h), List.map_map]
  apply List.map_congr_left
  intro p _
  by_cases hp : p.1 = k
  · simp [hp]
  · simp [hp]

theorem odSet_keys_of_not_mem (l : List (Nat × Option CVideo)) (k : Nat)
    (v : Option CVideo) (h : k ∉ l.map Prod.fst) :
    (odSet l k v).map Prod.fst = l.map Prod.fst ++ [k] := by
  unfold odSet
  rw [if_neg (fun hc => h ((odSet_any_iff l k).mp hc)), List.map_append]
  rfl

theorem odSet_mem (l : List (Nat × Option CVideo)) (k : Nat)
    (v : Option CVideo) (p : Nat × Option CVideo) (h : p ∈ odSet l k v) :
    p = (k, v) ∨ p ∈ l := by
  unfold odSet at h
  by_cases hany : l.any (fun p => p.1 = k) = true
  · rw [if_pos hany] at h
    obtain ⟨q, hq, hfq⟩ := List.mem_map.mp h
    by_cases hqk : q.1 = k
    · rw [if_pos hqk] at hfq
      exact Or.inl hfq.symm
    · rw [if_neg hqk] at hfq
      exact Or.inr (hfq ▸ hq)
  · rw [if_neg hany] at h
    rcases List.mem_append.mp h with hl | hr
    · exact Or.inr hl
    · exact Or.inl (List.mem_singleton.mp hr)

theorem mergeVtr_keys (f : List CVideo) :
    ∀ (l : List (Nat × Option CVideo)),
    (mergeVtr f l).map Prod.fst = l.map Prod.fst := by
  induction f with
  | nil => intro l; rfl
  | cons v f ih =>
    intro l
    have hstep : mergeVtr (v :: f) l =
        mergeVtr f (if l.any (fun p => p.1 = v.id) then
          odSet l v.id (some v) else l) := rfl
    rw [hstep]
    by_cases hany : l.any (fun p => p.1 = v.id) = true
    · rw [if_pos hany, ih, odSet_keys_of_mem]
      exact (odSet_any_iff l v.id).mp hany
    · rw [if_neg hany, ih]

theorem mergeVtr_mem (f : List CVideo) :
    ∀ (l : List (Nat × Option CVideo)) (p : Nat × Option CVideo),
    p ∈ mergeVtr f l → (∃ v, p = (v.id, some v)) ∨ p ∈ l := by
  induction f with
  | nil => intro l p h; exact Or.inr h
  | cons v f ih =>
    intro l p h
    have hstep : mergeVtr (v :: f) l =
        mergeVtr f (if l.any (fun p => p.1 = v.id) then
          odSet l v.id (some v) else l) := rfl
    rw [hstep] at h
    by_cases hany : l.any (fun p => p.1 = v.id) = true
    · rw [if_pos hany] at h
      rcases ih _ p h with hnew | hold
      · exact Or.inl hnew
      · rcases odSet_mem _ _ _ _ hold with he | hl
        · exact Or.inl ⟨v, he⟩
        · exact Or.inr hl
    · rw [if_neg hany] at h
      exact ih _ p h

theorem mergeCache_consistent (f : List CVideo) :
    ∀ (cache : Nat → Option CVideo),
    (∀ i v, cache i = some v → v.id = i) →
    ∀ i v, mergeCache f cache i = some v → v.id = i := by
  induction f with
  | nil => intro cache hc; exact hc
  | cons w f ih =>
    intro cache hc
    have hstep : mergeCache (w :: f) cache =
        mergeCache f (fun i => if i = w.id then some w else cache i) := rfl
    rw [hstep]
    apply ih
    intro i v hv
    by_cases hi : i = w.id
    · rw [if_pos hi] at hv
      rw [← Option.some.inj hv, hi]
    · rw [if_neg hi] at hv
      exact hc i v hv

theorem filterMap_snd_map_id (l : List (Nat × Option CVideo))
    (hvinv : ∀ p ∈ l, ∀ v, p.2 = some v → v.id = p.1)
    (hall : ∀ p ∈ l, p.2 ≠ none) :
    (l.filterMap (fun p => p.2)).map CVideo.id = l.map Prod.fst := by
  induction l with
  | nil => rfl
  | cons p l ih =>
    obtain ⟨k, ov⟩ := p
    cases ov with
    | none =>
      exact absurd rfl (hall (k, none) (List.mem_cons_self _ _))
    | some v =>
      have hid : v.id = k :=
        hvinv (k, some v) (List.mem_cons_self _ _) v rfl
      simp only [List.filterMap_cons, List.map_cons]
      rw [ih (fun q hq => hvinv q (List.mem_cons_of_mem _ hq))
        (fun q hq => hall q (List.mem_cons_of_mem _ hq))]
      rw [hid]

/-- One step of the collecting loop on a nonempty id list. -/
theorem collect_cons (cache : Nat → Option CVideo) (i : Nat)
    (rest : List Nat) (vtr : List (Nat × Option CVideo))
    (batch : List Nat) :
    collect cache (i :: rest) vtr batch =
      if batch.length = 50 then ⟨vtr, batch, i :: rest, none⟩
      else
        match cachedTerminal cache i with
        | some v =>
          if batch.isEmpty then ⟨vtr, batch, rest, some v⟩
          else collect cache rest (odSet vtr i (some v)) batch
        | none => collect cache rest (odSet vtr i none) (batch ++ [i]) :=
  rfl

/-- With a nonempty pending batch, the loop never returns immediately. -/
theorem collect_immediate_none (cache : Nat → Option CVideo) :
    ∀ (ids : List Nat) (vtr : List (Nat × Option CVideo))
      (batch : List Nat), batch ≠ [] →
    (collect cache ids vtr batch).immediate = none := by
  intro ids
  induction ids with
  | nil => intro vtr batch _; rfl
  | cons i rest ih =>
    intro vtr batch hb
    rw [collect_cons]
    split
    · rfl
    · split
      · split
        · next hbe => exact absurd (by simpa using hbe) hb
        · exact ih _ batch hb
      · exact ih _ (batch ++ [i]) (by simp)

/-- The buffer's key list only ever grows at the tail. -/
theorem collect_keys_extend (cache : Nat → Option CVideo) :
    ∀ (ids : List Nat) (vtr : List (Nat × Option CVideo))
      (batch : List Nat),
    ∃ suffix, (collect cache ids vtr batch).out.map Prod.fst =
      vtr.map Prod.fst ++ suffix := by
  intro ids
  induction ids with
  | nil => intro vtr batch; exact ⟨[], by simp [collect]⟩
  | cons i rest ih =>
    intro vtr batch
    rw [collect_cons]
    split
    · exact ⟨[], by simp⟩
    · split
      · next v heq =>
        split
        · exact ⟨[], by simp⟩
        · obtain ⟨s, hs⟩ := ih (odSet vtr i (some v)) batch
          by_cases hmem : i ∈ vtr.map Prod.fst
          · rw [odSet_keys_of_mem _ _ _ hmem] at hs
            exact ⟨s, hs⟩
          · rw [odSet_keys_of_not_mem _ _ _ hmem] at hs
            exact ⟨i :: s, by rw [hs, List.append_assoc]; rfl⟩
      · obtain ⟨s, hs⟩ := ih (odSet vtr i none) (batch ++ [i])
        by_cases hmem : i ∈ vtr.map Prod.fst
        · rw [odSet_keys_of_mem _ _ _ hmem] at hs
          exact ⟨s, hs⟩
        · rw [odSet_keys_of_not_mem _ _ _ hmem] at hs
          exact ⟨i :: s, by rw [hs, List.append_assoc]; rfl⟩

/-- Starting a round with empty buffer and batch, an empty resulting buffer
without an immediate return means the ids were exhausted before the round
started. -/
theorem collect_start_out_empty (cache : Nat → Option CVideo)
    (ids : List Nat)
    (h1 : (collect cache ids [] []).immediate = none)
    (h2 : (collect cache ids [] []).out = []) : ids = [] := by
  cases ids with
  | nil => rfl
  | cons i rest =>
    rw [collect_cons, if_neg (by simp)] at h1 h2
    split at h1
    · simp at h1
    · next heq =>
      split at h2
      · next v heq2 => rw [heq] at heq2; exact Option.noConfusion heq2
      · obtain ⟨s, hs⟩ := collect_keys_extend cache rest
          (odSet [] i none) ([] ++ [i])
        rw [h2] at hs
        rw [show odSet [] i none = [(i, none)] from rfl] at hs
        exact absurd hs.symm (by simp)

/-- An immediate return happens exactly when the first id is a cached
terminal hit (starting with empty buffer and batch). -/
theorem collect_start_immediate (cache : Nat → Option CVideo)
    (ids : List Nat) (v : CVideo)
    (h : (collect cache ids [] []).immediate = some v) :
    ∃ i rest, ids = i :: rest ∧ cachedTerminal cache i = some v ∧
      collect cache ids [] [] = ⟨[], [], rest, some v⟩ := by
  cases ids with
  | nil => exact Option.noConfusion h
  | cons i rest =>
    rw [collect_cons, if_neg (by simp)] at h
    split at h
    · next v0 heq =>
      simp only [List.isEmpty_nil, if_true] at h
      refine ⟨i, rest, rfl, ?_, ?_⟩
      · rw [heq, h]
      · simp [collect_cons, heq, h]
    · next heq =>
      rw [collect_immediate_none cache rest (odSet [] i none)
        ([] ++ [i]) (by simp)] at h
      exact Option.noConfusion h

/-- Invariants of the collecting loop: with duplicate-free ids disjoint
from the buffered keys and a consistent cache, the loop consumes a prefix
of the ids, appends exactly those ids to the buffer's key list (keeping it
duplicate-free), keeps every buffered video keyed by its own id, and keeps
every pending (`None`) buffer slot backed by the batch. -/
theorem collect_spec (cache : Nat → Option CVideo)
    (hcache : ∀ i v, cache i = some v → v.id = i) :
    ∀ (ids : List Nat) (vtr : List (Nat × Option CVideo))
      (batch : List Nat),
    ids.Nodup →
    (∀ k ∈ vtr.map Prod.fst, k ∉ ids) →
    (vtr.map Prod.fst).Nodup →
    (∀ p ∈ vtr, ∀ v, p.2 = some v → v.id = p.1) →
    (∀ p ∈ vtr, p.2 = none → p.1 ∈ batch) →
    (collect cache ids vtr batch).immediate = none →
    ∃ consumed,
      ids = consumed ++ (collect cache ids vtr batch).rest ∧
      (collect cache ids vtr batch).out.map Prod.fst =
        vtr.map Prod.fst ++ consumed ∧
      ((collect cache ids vtr batch).out.map Prod.fst).Nodup ∧
      (∀ p ∈ (collect cache ids vtr batch).out, ∀ v, p.2 = some v →
        v.id = p.1) ∧
      (∀ p ∈ (collect cache ids vtr batch).out, p.2 = none →
        p.1 ∈ (collect cache ids vtr batch).batch) := by
  intro ids
  induction ids with
  | nil =>
    intro vtr batch _ _ hknd hvinv hnb _
    exact ⟨[], by simp [collect], by simp [collect],
      by simpa [collect] using hknd, by simpa [collect] using hvinv,
      by simpa [collect] using hnb⟩
  | cons i rest ih =>
    intro vtr batch hnd hdisj hknd hvinv hnb himm
    have hinotin : i ∉ vtr.map Prod.fst := fun hmem =>
      hdisj i hmem (List.mem_cons_self _ _)
    have hnd2 := List.nodup_cons.mp hnd
    by_cases h50 : batch.length = 50
    · have hcol : collect cache (i :: rest) vtr batch =
          ⟨vtr, batch, i :: rest, none⟩ := by
        rw [collect_cons, if_pos h50]
      rw [hcol]
      exact ⟨[], rfl, by simp, hknd, hvinv, hnb⟩
    · cases heq : cachedTerminal cache i with
      | some v =>
        by_cases hbe : batch.isEmpty = true
        · have hcol : collect cache (i :: rest) vtr batch =
              ⟨vtr, batch, rest, some v⟩ := by
            simp [collect_cons, heq, h50, hbe]
          rw [hcol] at himm
          exact Option.noConfusion himm
        · have hcol : collect cache (i :: rest) vtr batch =
              collect cache rest (odSet vtr i (some v)) batch := by
            simp [collect_cons, heq, h50, hbe]
          rw [hcol] at himm ⊢
          have hvid : v.id = i :=
            hcache i v (cachedTerminal_cache_eq cache i v heq)
          obtain ⟨consumed, hsp, hkeys, hknd2, hvinv2, hnb2⟩ :=
            ih (odSet vtr i (some v)) batch hnd2.2
              (by
                intro k hk
                rw [odSet_keys_of_not_mem _ _ _ hinotin] at hk
                rcases List.mem_append.mp hk with hk1 | hk2
                · exact fun hr => hdisj k hk1 (List.mem_cons_of_mem _ hr)
                · rw [List.mem_singleton.mp hk2]
                  exact hnd2.1)
              (by
                rw [odSet_keys_of_not_mem _ _ _ hinotin]
                refine List.Nodup.append hknd (by simp) ?_
                intro a ha hb
                rw [List.mem_singleton.mp hb] at ha
                exact hinotin ha)
              (by
                intro p hp w hw
                rcases odSet_mem _ _ _ _ hp with rfl | hp2
                · rw [Option.some.inj hw] at hvid
                  exact hvid
                · exact hvinv p hp2 w hw)
              (by
                intro p hp hpn
                rcases odSet_mem _ _ _ _ hp with rfl | hp2
                · exact Option.noConfusion hpn
                · exact hnb p hp2 hpn)
              himm
          refine ⟨i :: consumed, ?_, ?_, hknd2, hvinv2, hnb2⟩
          · rw [List.cons_append, ← hsp]
          · rw [hkeys, odSet_keys_of_not_mem _ _ _ hinotin,
              List.append_assoc]
            rfl
      | none =>
        have hcol : collect cache (i :: rest) vtr batch =
            collect cache rest (odSet vtr i none) (batch ++ [i]) := by
          simp [collect_cons, heq, h50]
        rw [hcol] at himm ⊢
        obtain ⟨consumed, hsp, hkeys, hknd2, hvinv2, hnb2⟩ :=
          ih (odSet vtr i none) (batch ++ [i]) hnd2.2
            (by
              intro k hk
              rw [odSet_keys_of_not_mem _ _ _ hinotin] at hk
              rcases List.mem_append.mp hk with hk1 | hk2
              · exact fun hr => hdisj k hk1 (List.mem_cons_of_mem _ hr)
              · rw [List.mem_singleton.mp hk2]
                exact hnd2.1)
            (by
              rw [odSet_keys_of_not_mem _ _ _ hinotin]
              refine List.Nodup.append hknd (by simp) ?_
              intro a ha hb
              rw [List.mem_singleton.mp hb] at ha
              exact hinotin ha)
            (by
              intro p hp w hw
              rcases odSet_mem _ _ _ _ hp with rfl | hp2
              · exact Option.noConfusion hw
              · exact hvinv p hp2 w hw)
            (by
              intro p hp hpn
              rcases odSet_mem _ _ _ _ hp with rfl | hp2
              · exact List.mem_append_right _ (List.mem_singleton.mpr rfl)
              · exact List.mem_append_left _ (hnb p hp2 hpn))
            himm
        refine ⟨i :: consumed, ?_, ?_, hknd2, hvinv2, hnb2⟩
        · rw [List.cons_append, ← hsp]
        · rw [hkeys, odSet_keys_of_not_mem _ _ _ hinotin,
            List.append_assoc]
          rfl

/-- Order preservation of the full getter iteration: over duplicate-free
ids, with a cache keyed consistently, an error-free run yields exactly one
video per requested id, keyed by that id, in the order the ids were
given. -/
theorem drainF_spec (api : List Nat → List CVideo) :
    ∀ (fuel : Nat) (cache : Nat → Option CVideo) (ids : List Nat),
    ids.length < fuel → ids.Nodup →
    (∀ i v, cache i = some v → v.id = i) →
    (drainF api fuel cache ids).2.2 = none →
    (drainF api fuel cache ids).1.map CVideo.id = ids := by
  intro fuel
  induction fuel with
  | zero => intro cache ids hf; omega
  | succ fuel ih =>
    intro cache ids hf hnd hc hok
    cases himm : (collect cache ids [] []).immediate with
    | some v =>
      obtain ⟨i, rest, rfl, hct, hcol⟩ :=
        collect_start_immediate cache ids v himm
      have hstep : drainF api (fuel + 1) cache (i :: rest) =
          (v :: (drainF api fuel cache rest).1,
            (drainF api fuel cache rest).2.1,
            (drainF api fuel cache rest).2.2) := by
        rw [drainF_succ, hcol]
      rw [hstep] at hok ⊢
      have hvid : v.id = i := hc i v (cachedTerminal_cache_eq cache i v hct)
      have hrec := ih cache rest (by simpa using hf)
        (List.nodup_cons.mp hnd).2 hc hok
      show List.map CVideo.id (v :: (drainF api fuel cache rest).1) =
        i :: rest
      rw [List.map_cons, hvid, hrec]
    | none =>
      by_cases hout : (collect cache ids [] []).out = []
      · have hids : ids = [] := collect_start_out_empty cache ids himm hout
        subst hids
        rfl
      · obtain ⟨consumed, hsp, hkeys, hknd, hvinv, hnb⟩ :=
          collect_spec cache hc ids [] [] hnd (by simp) (by simp)
            (by simp) (by simp) himm
        rcases hcol : collect cache ids [] [] with ⟨out, batch, rest, imm⟩
        rw [hcol] at himm hsp hkeys hknd hvinv hnb hout
        dsimp only at himm hsp hkeys hknd hvinv hnb hout
        subst himm
        simp only [List.map_nil, List.nil_append] at hkeys
        have hconsumed_ne : consumed ≠ [] := by
          intro hcz
          apply hout
          rw [hcz] at hkeys
          exact List.map_eq_nil_iff.mp hkeys
        have hrest_lt : rest.length < ids.length := by
          rw [hsp, List.length_append]
          have := List.length_pos.mpr hconsumed_ne
          omega
        have hrest_nd : rest.Nodup := by
          rw [hsp] at hnd
          exact hnd.of_append_right
        have hstep := drainF_succ api fuel cache ids
        rw [hcol] at hstep
        dsimp only at hstep
        rw [if_neg (by simpa using hout)] at hstep
        by_cases hb : batch.isEmpty = true
        · -- no fetch this round: everything buffered was a cached hit
          rw [if_pos hb] at hstep
          have hbnil : batch = [] := by simpa using hb
          have hall : ∀ p ∈ out, p.2 ≠ none := by
            intro p hp hpn
            have := hnb p hp hpn
            rw [hbnil] at this
            simp at this
          have houts : (out.filterMap (fun p => p.2)).map CVideo.id =
              consumed := by
            rw [filterMap_snd_map_id out hvinv hall, hkeys]
          rw [hstep] at hok ⊢
          have hrec := ih cache rest (by omega) hrest_nd hc hok
          show List.map CVideo.id (out.filterMap (fun p => p.2) ++
            (drainF api fuel cache rest).1) = ids
          rw [List.map_append, houts, hrec, hsp]
        · -- batched fetch round
          rw [if_neg hb] at hstep
          cases hfind : (mergeVtr (api batch) out).find?
              (fun p => p.2.isNone) with
          | some p =>
            rw [hfind] at hstep
            rw [hstep] at hok
            exact Option.noConfusion hok
          | none =>
            rw [hfind] at hstep
            have hall : ∀ p ∈ mergeVtr (api batch) out, p.2 ≠ none := by
              intro p hp hpn
              have := List.find?_eq_none.mp hfind p hp
              rw [hpn] at this
              simp at this
            have hvinv2 : ∀ p ∈ mergeVtr (api batch) out, ∀ v,
                p.2 = some v → v.id = p.1 := by
              intro p hp v hv
              rcases mergeVtr_mem (api batch) out p hp with ⟨w, rfl⟩ | hp2
              · dsimp only at hv
                rw [Option.some.inj hv]
              · exact hvinv p hp2 v hv
            have houts : ((mergeVtr (api batch) out).filterMap
                (fun p => p.2)).map CVideo.id = consumed := by
              rw [filterMap_snd_map_id _ hvinv2 hall, mergeVtr_keys, hkeys]
            rw [hstep] at hok ⊢
            have hrec := ih (mergeCache (api batch) cache) rest (by omega)
              hrest_nd (mergeCache_consistent (api batch) cache hc) hok
            show List.map CVideo.id ((mergeVtr (api batch) out).filterMap
              (fun p => p.2) ++
              (drainF api fuel (mergeCache (api batch) cache) rest).1) = ids
            rw [List.map_append, houts, hrec, hsp]

/-- C1 amended: for a duplicate-free id sequence, a cache whose entries are
keyed by their own id, and a run that raises no unknown-id error, iterating
the getter yields exactly one catalog entry per input id — the entry bearing
that id — in the same order in which the ids were given (cached hits
interleaved in position with freshly fetched ones).  Duplicate ids buffered
into the same pending window collapse into one entry (see the
counterexample), which is what restricts the claim to distinct ids. -/
theorem C1_amended_order (api : List Nat → List CVideo)
    (cache : Nat → Option CVideo) (ids : List Nat)
    (hnodup : ids.Nodup)
    (hcache : ∀ i v, cache i = some v → v.id = i)
    (hok : (drainVideos api cache ids).2.2 = none) :
    (drainVideos api cache ids).1.map CVideo.id = ids :=
  drainF_spec api (ids.length + 1) cache ids (by omega) hnodup hcache hok

/-- Witness for C1 amended: a mixed run (one cached-terminal hit between
two fresh ids) yields the three entries in input order. -/
theorem C1_amended_order_witness :
    (drainVideos
        (fun b => b.map (fun i => ⟨i, some "succeeded"⟩))
        (fun i => if i = 5 then some ⟨5, some "succeeded"⟩ else none)
        [1, 5, 2]).1.map CVideo.id = [1, 5, 2] :=
  C1_amended_order
    (fun b => b.map (fun i => ⟨i, some "succeeded"⟩))
    (fun i => if i = 5 then some ⟨5, some "succeeded"⟩ else none)
    [1, 5, 2] (by decide)
    (by
      intro i v hv
      dsimp only at hv
      by_cases hi : i = 5
      · rw [if_pos hi] at hv
        rw [← Option.some.inj hv, hi]
      · rw [if_neg hi] at hv
        exact Option.noConfusion hv)
    (by decide)
